import Mathlib

/-!
Verification development for `extractIRpeaks.py`.

The script reads JCAMP spectra, normalizes the amplitude series, finds local
maxima with `scipy.signal.find_peaks`, filters them by a normalized amplitude
threshold and writes the surviving (wavenumber, amplitude) pairs to csv files.

Embedding conventions:
* numpy float arrays of amplitudes are embedded as `List ℚ` (exact rational
  arithmetic; the claims under study are order/selection properties that do
  not depend on rounding).  Array indexing `a[i]` becomes `List.getD a i 0`;
  every access performed by the algorithms below is in bounds, so the default
  is never observable.
* the one place where IEEE semantics matters — dividing by a zero maximum in
  `IRgraph[1][:] /= max(IRgraph[1][:])`, which numpy answers with NaN and a
  warning instead of raising — is modelled separately with `Option ℚ`
  (`none` = non-finite result) by `normalizeNp`.
* Python strings are embedded as `String` where only concatenation and
  equality matter, and as `List Char` where elementwise scans matter
  (`str.endswith`, the substring test `sub in s`).
* `scipy.signal.find_peaks(x, distance=d)` is embedded following the scipy
  sources: `_local_maxima_1d` (plateau midpoints) followed by
  `_select_by_peak_distance` on the amplitude priorities.  The `while` loops
  of the C implementations become fuel-indexed structural recursions; the
  fuel supplied is always sufficient, which the lemmas make precise.
  `np.argsort` on priorities does not specify the relative order of equal
  priorities; the embedding fixes the stable order (earlier index first),
  and none of the properties proved below depends on how ties are broken.
-/

namespace ExtractIR

/-- Python's `min` over a nonempty sequence, as folded on lists
(`min(IRgraph[1][:])`, line 83 of `extractIRpeaks.py`).  The `[]` case is
arbitrary: Python raises there and every use below is on a nonempty list. -/
def listMin (l : List ℚ) : ℚ :=
  match l with
  | [] => 0
  | a :: t => t.foldl min a

/-- Python's `max` over a nonempty sequence (`max(IRgraph[1][:])`, line 86). -/
def listMax (l : List ℚ) : ℚ :=
  match l with
  | [] => 0
  | a :: t => t.foldl max a

/-- Offset removal, line 83: `IRgraph[1][:] = IRgraph[1][:] - min(IRgraph[1][:])`. -/
def offsetRemoved (ys : List ℚ) : List ℚ :=
  ys.map (fun v => v - listMin ys)

/-- Max normalization, line 86: `IRgraph[1][:] /= max(IRgraph[1][:])`, applied
after offset removal.  Division is exact rational division; the degenerate
`max = 0` case is modelled faithfully by `normalizeNp` below. -/
def normalizeStage (ys : List ℚ) : List ℚ :=
  (offsetRemoved ys).map (fun v => v / listMax (offsetRemoved ys))

/-- Amplitude inversion, lines 79-80: `IRgraph[1][:] = 1 - IRgraph[1][:]`,
applied when the file name passes the `f in invertAmp` test. -/
def invertStep (inv : Bool) (ys : List ℚ) : List ℚ :=
  if inv then ys.map (fun v => 1 - v) else ys

/-- IEEE division as performed by numpy on line 86: dividing by zero does not
raise, it produces a non-finite value (NaN for `0/0`, which is the only case
arising after offset removal of a flat series) and only emits a warning.
`none` stands for the non-finite result. -/
def npDiv (a b : ℚ) : Option ℚ :=
  if b = 0 then none else some (a / b)

/-- Lines 83-86 with numpy's actual division semantics: the normalizer never
raises; on a flat spectrum every amplitude silently becomes non-finite. -/
def normalizeNp (ys : List ℚ) : List (Option ℚ) :=
  (offsetRemoved ys).map (fun v => npDiv v (listMax (offsetRemoved ys)))

/-- Scan of scipy `_local_maxima_1d`'s inner `while` loop: starting at `k`,
advance while `k < i_max and x[k] == x[i]` (the plateau continues); `v` is
`x[i]`.  The first argument of the recursion is fuel for the `while` loop;
callers pass `y.length`, which the lemmas show is always enough. -/
def findAhead (y : List ℚ) (iMax : ℕ) (v : ℚ) : ℕ → ℕ → ℕ
  | 0, k => k
  | fuel + 1, k => if k < iMax ∧ y.getD k 0 = v then findAhead y iMax v fuel (k + 1) else k

/-- Scan of scipy `_local_maxima_1d`'s outer `while i < i_max` loop, fuel
indexed.  A candidate is emitted for every maximal plateau `[i, i_ahead - 1]`
with a strict rise on the left and a strict fall on the right, positioned at
the plateau midpoint `(i + (i_ahead - 1)) // 2`; the scan resumes at
`i_ahead + 1`. -/
def lmLoop (y : List ℚ) (iMax : ℕ) : ℕ → ℕ → List ℕ
  | 0, _ => []
  | fuel + 1, i =>
    if i < iMax then
      if y.getD (i - 1) 0 < y.getD i 0 then
        if y.getD (findAhead y iMax (y.getD i 0) y.length (i + 1)) 0 < y.getD i 0 then
          ((i + (findAhead y iMax (y.getD i 0) y.length (i + 1) - 1)) / 2) ::
            lmLoop y iMax fuel (findAhead y iMax (y.getD i 0) y.length (i + 1) + 1)
        else lmLoop y iMax fuel (i + 1)
      else lmLoop y iMax fuel (i + 1)
    else []

/-- scipy `_local_maxima_1d x`: the interior local maxima (plateau midpoints)
of the series, in increasing index order.  The scan runs over
`i = 1 .. x.size - 2`, so boundary samples are never candidates. -/
def localMaxima (y : List ℚ) : List ℕ :=
  lmLoop y (y.length - 1) y.length 1

/-- One iteration of scipy `_select_by_peak_distance`: if candidate `j` is
still kept, clear `keep` for every other candidate whose position is closer
than `distance` to `j`'s position.  (The C code walks left and right from `j`
and stops at the first candidate at distance `≥ distance`; since candidate
positions are strictly increasing, that clears exactly the candidates within
`distance`, which is what is written here.) -/
def suppressStep (cands : List ℕ) (d : ℕ) (keep : List Bool) (j : ℕ) : List Bool :=
  if keep.getD j false = true then
    (List.range keep.length).map (fun k =>
      if k ≠ j ∧ Nat.dist (cands.getD k 0) (cands.getD j 0) < d then false
      else keep.getD k false)
  else keep

/-- The main loop of scipy `_select_by_peak_distance`, processing candidate
list positions from highest to lowest priority. -/
def selectLoop (cands : List ℕ) (d : ℕ) : List ℕ → List Bool → List Bool
  | [], keep => keep
  | j :: rest, keep => selectLoop cands d rest (suppressStep cands d keep j)

/-- `np.argsort(priority)` followed by the highest-priority-first traversal:
the candidate list positions `0 .. n-1` sorted by decreasing priority.
numpy's argsort leaves the order of equal priorities unspecified; the stable
order (earlier index first) is fixed here. -/
def selOrder (prio : List ℚ) (n : ℕ) : List ℕ :=
  List.insertionSort (fun a b => prio.getD b 0 ≤ prio.getD a 0) (List.range n)

/-- scipy `_select_by_peak_distance(peaks, priority, distance)`: the boolean
keep-mask over candidate list positions. -/
def selectByPeakDistance (cands : List ℕ) (prio : List ℚ) (d : ℕ) : List Bool :=
  selectLoop cands d (selOrder prio cands.length) (List.replicate cands.length true)

/-- `scipy.signal.find_peaks(y, distance=d)[0]` as called on line 89: local
maxima, thinned by minimal index distance using the amplitudes as priorities;
the kept peak positions in increasing order (`peaks[keep]`). -/
def find_peaks (y : List ℚ) (d : ℕ) : List ℕ :=
  ((List.range (localMaxima y).length).filter
      (fun j =>
        (selectByPeakDistance (localMaxima y)
            ((localMaxima y).map (fun p => y.getD p 0)) d).getD j false)).map
    (fun j => (localMaxima y).getD j 0)

/-- Lines 89-97 on an already normalized series: find peaks, read off
`(x, y)` pairs, keep those with `peaks[1] >= ampThreshold`
(`np.where(peaks[1][:] >= ampThreshold)` preserves order). -/
def peakDetect (xs ys : List ℚ) (t : ℚ) (d : ℕ) : List (ℚ × ℚ) :=
  ((find_peaks ys d).map (fun i => (xs.getD i 0, ys.getD i 0))).filter
    (fun p => t ≤ p.2)

/-- The peak detector at the index level: the peak positions that survive both
distance suppression and the amplitude threshold. -/
def detectIdx (ys : List ℚ) (t : ℚ) (d : ℕ) : List ℕ :=
  (find_peaks ys d).filter (fun i => t ≤ ys.getD i 0)

/-- The per-file numeric pipeline of `extract_peaks` (lines 79-97): optional
inversion, offset removal, max normalization, peak finding, threshold
filter. -/
def extract_one (xs ys : List ℚ) (inv : Bool) (t : ℚ) (d : ℕ) : List (ℚ × ℚ) :=
  peakDetect xs (normalizeStage (invertStep inv ys)) t d

/-- Line 71: the path handed to `JCAMP_reader` is `'.\\input_IR\\' + f` — a
hardcoded directory that does not depend on the CLI `inputFolder`. -/
def readPath (f : String) : String :=
  ".\\input_IR\\" ++ f

/-- Python's `str.startswith` on character lists (helper for the substring
test below). -/
def startsWithChars : List Char → List Char → Bool
  | [], _ => true
  | _ :: _, [] => false
  | a :: as, b :: bs => a = b && startsWithChars as bs

/-- Python's substring containment `sub in s` for strings, as evaluated by
`if f in invertAmp` on line 79 when `invertAmp` is the string produced by
`argparse` for `--invertAmplitude` (lines 123 and 133): true iff `sub` occurs
contiguously in `s`. -/
def strIn (sub : List Char) : List Char → Bool
  | [] => startsWithChars sub []
  | b :: t => startsWithChars sub (b :: t) || strIn sub t

/-- Python's `str.endswith` on character lists, as used by `list_files`
(line 48). -/
def endsWithChars (s ext : List Char) : Bool :=
  startsWithChars ext.reverse s.reverse

/-- Line 47-48: `list_files` keeps the directory entries whose names end with
the configured extension. -/
def list_files (entries : List (List Char)) (ext : List Char) : List (List Char) :=
  entries.filter (fun f => endsWithChars f ext)

/-- Filesystem operations attempted by `extract_peaks`, in order.  `mkdirOut`
stands for the check-and-create of the output directory (lines 102-103),
which happens only inside the per-file loop. -/
inductive Event where
  | readJdx (path : List Char)
  | mkdirOut (dir : List Char)
  | writeCsv (path : List Char)

/-- The orchestration skeleton of `extract_peaks` (lines 67-115): one loop
iteration per file name, each reading `.\input_IR\<f>`, touching the output
directory and writing `<f[:-3]>csv`; the second component counts processed
files.  An empty file list performs no operation at all. -/
def extract_peaks_events (files : List (List Char)) (outFolder : List Char) :
    List Event × ℕ :=
  files.foldl
    (fun acc f =>
      (acc.1 ++
          [Event.readJdx (".\\input_IR\\".toList ++ f),
           Event.mkdirOut outFolder,
           Event.writeCsv
             (".\\".toList ++ outFolder ++ "\\".toList ++ f.take (f.length - 3) ++ "csv".toList)],
        acc.2 + 1))
    ([], 0)

/-- Invariant of the distance-suppression loop used to prove the separation
property: any two distinct kept candidates that are closer than `d` must both
still have their processing turn ahead of them (in `order`).  Once `order` is
exhausted, no close pair survives. -/
def SepInv (cands : List ℕ) (d : ℕ) (order : List ℕ) (keep : List Bool) : Prop :=
  ∀ j k, j ≠ k → Nat.dist (cands.getD j 0) (cands.getD k 0) < d →
    keep.getD j false = true → keep.getD k false = true → j ∈ order ∨ k ∈ order

/-- Invariant of the distance-suppression loop used to prove that the
first-processed (highest-priority) candidate `j₀` survives: `j₀` is kept and
everything closer than `d` to it is already cleared. -/
def KeepInv (cands : List ℕ) (d : ℕ) (j₀ : ℕ) (keep : List Bool) : Prop :=
  keep.getD j₀ false = true ∧
    ∀ k, k ≠ j₀ → Nat.dist (cands.getD k 0) (cands.getD j₀ 0) < d →
      keep.getD k false = false

/-- The concrete wavenumber series of the spec's worked scenario. -/
def specX : List ℚ := [400, 800, 1200, 1600, 2000]

/-- The concrete amplitude series of the spec's worked scenario. -/
def specY : List ℚ := [1/10, 9/10, 1/20, 1/20, 19/20]

end ExtractIR

namespace ExtractIR

/-! ### Facts about `listMin` / `listMax` -/

theorem foldl_min_le_init (t : List ℚ) : ∀ a : ℚ, t.foldl min a ≤ a := by
  induction t with
  | nil => intro a; exact le_refl a
  | cons b t ih => intro a; exact le_trans (ih (min a b)) (min_le_left a b)

theorem foldl_min_le_mem (t : List ℚ) : ∀ a x, x ∈ t → t.foldl min a ≤ x := by
  induction t with
  | nil => intro a x hx; cases hx
  | cons b t ih =>
    intro a x hx
    rcases List.mem_cons.1 hx with h | h
    · subst h; exact le_trans (foldl_min_le_init t (min a x)) (min_le_right a x)
    · exact ih (min a b) x h

theorem foldl_min_choice (t : List ℚ) : ∀ a, t.foldl min a = a ∨ t.foldl min a ∈ t := by
  induction t with
  | nil => intro a; exact Or.inl rfl
  | cons b t ih =>
    intro a
    rcases ih (min a b) with h | h
    · rcases min_choice a b with hab | hab
      · exact Or.inl (by rw [List.foldl_cons, h, hab])
      · exact Or.inr (by rw [List.foldl_cons, h, hab]; exact List.mem_cons_self b t)
    · exact Or.inr (List.mem_cons_of_mem b h)

theorem listMin_le (l : List ℚ) (x : ℚ) (hx : x ∈ l) : listMin l ≤ x := by
  cases l with
  | nil => cases hx
  | cons a t =>
    rcases List.mem_cons.1 hx with h | h
    · subst h; exact foldl_min_le_init t x
    · exact foldl_min_le_mem t a x h

theorem listMin_mem (l : List ℚ) (h : l ≠ []) : listMin l ∈ l := by
  cases l with
  | nil => exact absurd rfl h
  | cons a t =>
    rcases foldl_min_choice t a with h' | h'
    · show t.foldl min a ∈ a :: t
      rw [h']
      exact List.mem_cons_self a t
    · exact List.mem_cons_of_mem a h'

theorem init_le_foldl_max (t : List ℚ) : ∀ a : ℚ, a ≤ t.foldl max a := by
  induction t with
  | nil => intro a; exact le_refl a
  | cons b t ih => intro a; exact le_trans (le_max_left a b) (ih (max a b))

theorem mem_le_foldl_max (t : List ℚ) : ∀ a x, x ∈ t → x ≤ t.foldl max a := by
  induction t with
  | nil => intro a x hx; cases hx
  | cons b t ih =>
    intro a x hx
    rcases List.mem_cons.1 hx with h | h
    · subst h; exact le_trans (le_max_right a x) (init_le_foldl_max t (max a x))
    · exact ih (max a b) x h

theorem foldl_max_choice (t : List ℚ) : ∀ a, t.foldl max a = a ∨ t.foldl max a ∈ t := by
  induction t with
  | nil => intro a; exact Or.inl rfl
  | cons b t ih =>
    intro a
    rcases ih (max a b) with h | h
    · rcases max_choice a b with hab | hab
      · exact Or.inl (by rw [List.foldl_cons, h, hab])
      · exact Or.inr (by rw [List.foldl_cons, h, hab]; exact List.mem_cons_self b t)
    · exact Or.inr (List.mem_cons_of_mem b h)

theorem le_listMax (l : List ℚ) (x : ℚ) (hx : x ∈ l) : x ≤ listMax l := by
  cases l with
  | nil => cases hx
  | cons a t =>
    rcases List.mem_cons.1 hx with h | h
    · subst h; exact init_le_foldl_max t x
    · exact mem_le_foldl_max t a x h

theorem listMax_mem (l : List ℚ) (h : l ≠ []) : listMax l ∈ l := by
  cases l with
  | nil => exact absurd rfl h
  | cons a t =>
    rcases foldl_max_choice t a with h' | h'
    · show t.foldl max a ∈ a :: t
      rw [h']
      exact List.mem_cons_self a t
    · exact List.mem_cons_of_mem a h'

theorem listMin_lt_listMax (l : List ℚ) (a : ℚ) (ha : a ∈ l) (b : ℚ) (hb : b ∈ l)
    (hab : a ≠ b) : listMin l < listMax l := by
  rcases lt_or_gt_of_ne hab with h | h
  · exact lt_of_le_of_lt (listMin_le l a ha) (lt_of_lt_of_le h (le_listMax l b hb))
  · exact lt_of_le_of_lt (listMin_le l b hb) (lt_of_lt_of_le h (le_listMax l a ha))

theorem foldl_min_map_sub (c : ℚ) (t : List ℚ) :
    ∀ a, (t.map (fun v => v - c)).foldl min (a - c) = t.foldl min a - c := by
  induction t with
  | nil => intro a; rfl
  | cons b t ih =>
    intro a
    simp only [List.map_cons, List.foldl_cons]
    rw [min_sub_sub_right, ih]

theorem listMin_map_sub (c : ℚ) (l : List ℚ) (h : l ≠ []) :
    listMin (l.map (fun v => v - c)) = listMin l - c := by
  cases l with
  | nil => exact absurd rfl h
  | cons a t => exact foldl_min_map_sub c t a

theorem foldl_max_map_sub (c : ℚ) (t : List ℚ) :
    ∀ a, (t.map (fun v => v - c)).foldl max (a - c) = t.foldl max a - c := by
  induction t with
  | nil => intro a; rfl
  | cons b t ih =>
    intro a
    simp only [List.map_cons, List.foldl_cons]
    rw [max_sub_sub_right, ih]

theorem listMax_map_sub (c : ℚ) (l : List ℚ) (h : l ≠ []) :
    listMax (l.map (fun v => v - c)) = listMax l - c := by
  cases l with
  | nil => exact absurd rfl h
  | cons a t => exact foldl_max_map_sub c t a

theorem foldl_max_map_div (c : ℚ) (hc : 0 ≤ c) (t : List ℚ) :
    ∀ a, (t.map (fun v => v / c)).foldl max (a / c) = t.foldl max a / c := by
  induction t with
  | nil => intro a; rfl
  | cons b t ih =>
    intro a
    simp only [List.map_cons, List.foldl_cons]
    rw [max_div_div_right hc, ih]

theorem listMax_map_div (c : ℚ) (hc : 0 ≤ c) (l : List ℚ) (h : l ≠ []) :
    listMax (l.map (fun v => v / c)) = listMax l / c := by
  cases l with
  | nil => exact absurd rfl h
  | cons a t => exact foldl_max_map_div c hc t a

theorem foldl_min_map_div (c : ℚ) (hc : 0 ≤ c) (t : List ℚ) :
    ∀ a, (t.map (fun v => v / c)).foldl min (a / c) = t.foldl min a / c := by
  induction t with
  | nil => intro a; rfl
  | cons b t ih =>
    intro a
    simp only [List.map_cons, List.foldl_cons]
    rw [min_div_div_right hc, ih]

theorem listMin_map_div (c : ℚ) (hc : 0 ≤ c) (l : List ℚ) (h : l ≠ []) :
    listMin (l.map (fun v => v / c)) = listMin l / c := by
  cases l with
  | nil => exact absurd rfl h
  | cons a t => exact foldl_min_map_div c hc t a

/-! ### Facts about `offsetRemoved` and `normalizeStage` -/

theorem offsetRemoved_ne_nil (l : List ℚ) (h : l ≠ []) : offsetRemoved l ≠ [] := by
  unfold offsetRemoved
  simpa using h

theorem offsetRemoved_listMin (l : List ℚ) (h : l ≠ []) : listMin (offsetRemoved l) = 0 := by
  unfold offsetRemoved
  rw [listMin_map_sub _ _ h, sub_self]

theorem offsetRemoved_listMax (l : List ℚ) (h : l ≠ []) :
    listMax (offsetRemoved l) = listMax l - listMin l := by
  unfold offsetRemoved
  exact listMax_map_sub _ _ h

theorem offsetRemoved_listMax_pos (l : List ℚ) (h : l ≠ [])
    (hnf : ∃ a ∈ l, ∃ b ∈ l, a ≠ b) : 0 < listMax (offsetRemoved l) := by
  obtain ⟨a, ha, b, hb, hab⟩ := hnf
  rw [offsetRemoved_listMax l h]
  exact sub_pos.2 (listMin_lt_listMax l a ha b hb hab)

/-- The invariants of the normalized amplitude series that the claims about the
Signal Normalizer assert: every value in `[0, 1]`, minimum `0`, maximum `1`. -/
theorem normalizeStage_props (l : List ℚ) (h : l ≠ []) (hnf : ∃ a ∈ l, ∃ b ∈ l, a ≠ b) :
    (∀ v ∈ normalizeStage l, 0 ≤ v ∧ v ≤ 1) ∧
      listMin (normalizeStage l) = 0 ∧ listMax (normalizeStage l) = 1 := by
  have hne' := offsetRemoved_ne_nil l h
  have hMpos := offsetRemoved_listMax_pos l h hnf
  have hMne : listMax (offsetRemoved l) ≠ 0 := ne_of_gt hMpos
  have hmin : listMin (normalizeStage l) = 0 := by
    unfold normalizeStage
    rw [listMin_map_div _ (le_of_lt hMpos) _ hne', offsetRemoved_listMin l h, zero_div]
  have hmax : listMax (normalizeStage l) = 1 := by
    unfold normalizeStage
    rw [listMax_map_div _ (le_of_lt hMpos) _ hne', div_self hMne]
  refine ⟨?_, hmin, hmax⟩
  intro v hv
  constructor
  · calc (0 : ℚ) = listMin (normalizeStage l) := hmin.symm
      _ ≤ v := listMin_le _ v hv
  · calc v ≤ listMax (normalizeStage l) := le_listMax _ v hv
      _ = 1 := hmax

theorem invertStep_ne_nil (inv : Bool) (l : List ℚ) (h : l ≠ []) : invertStep inv l ≠ [] := by
  unfold invertStep
  cases inv <;> simpa using h

theorem invertStep_nonflat (inv : Bool) (l : List ℚ) (hnf : ∃ a ∈ l, ∃ b ∈ l, a ≠ b) :
    ∃ a ∈ invertStep inv l, ∃ b ∈ invertStep inv l, a ≠ b := by
  obtain ⟨a, ha, b, hb, hab⟩ := hnf
  cases inv with
  | false => exact ⟨a, ha, b, hb, hab⟩
  | true =>
    refine ⟨1 - a, ?_, 1 - b, ?_, ?_⟩
    · show (1 - a) ∈ l.map (fun v => 1 - v)
      exact List.mem_map_of_mem (fun v => 1 - v) ha
    · show (1 - b) ∈ l.map (fun v => 1 - v)
      exact List.mem_map_of_mem (fun v => 1 - v) hb
    · intro hcon
      exact hab (by linarith)

end ExtractIR

namespace ExtractIR

/-! ### Generic `getD` facts -/

theorem getD_range_map {α : Type} (f : ℕ → α) (dflt : α) (n k : ℕ) :
    ((List.range n).map f).getD k dflt = if k < n then f k else dflt := by
  by_cases h : k < n
  · have hlen : k < ((List.range n).map f).length := by simpa using h
    rw [List.getD_eq_getElem _ _ hlen, if_pos h]
    simp
  · rw [if_neg h]
    apply List.getD_eq_default
    simpa using Nat.le_of_not_lt h

theorem getD_replicate (n k : ℕ) (h : k < n) : (List.replicate n true).getD k false = true := by
  have hlen : k < (List.replicate n true).length := by simpa using h
  rw [List.getD_eq_getElem _ _ hlen]
  simp

theorem getD_replicate_lt (n k : ℕ) (h : (List.replicate n true).getD k false = true) :
    k < n := by
  by_contra hcon
  rw [List.getD_eq_default] at h
  · exact Bool.noConfusion h
  · simpa using Nat.le_of_not_lt hcon

theorem getD_mem_of_lt (l : List ℕ) (j : ℕ) (h : j < l.length) : l.getD j 0 ∈ l := by
  rw [List.getD_eq_getElem l 0 h]
  exact List.getElem_mem h

theorem pairwise_getD_lt (l : List ℕ) (hp : l.Pairwise (· < ·)) (a b : ℕ)
    (hab : a < b) (hb : b < l.length) : l.getD a 0 < l.getD b 0 := by
  have ha : a < l.length := lt_trans hab hb
  rw [List.getD_eq_getElem l 0 ha, List.getD_eq_getElem l 0 hb]
  exact List.pairwise_iff_getElem.mp hp a b ha hb hab

/-! ### The plateau scan `findAhead` -/

theorem findAhead_ge (y : List ℚ) (iMax : ℕ) (v : ℚ) :
    ∀ fuel k, k ≤ findAhead y iMax v fuel k := by
  intro fuel
  induction fuel with
  | zero => intro k; exact le_refl k
  | succ fuel ih =>
    intro k
    simp only [findAhead]
    by_cases hc : k < iMax ∧ y.getD k 0 = v
    · rw [if_pos hc]
      exact le_trans (Nat.le_succ k) (ih (k + 1))
    · rw [if_neg hc]

theorem findAhead_le (y : List ℚ) (iMax : ℕ) (v : ℚ) :
    ∀ fuel k, k ≤ iMax → findAhead y iMax v fuel k ≤ iMax := by
  intro fuel
  induction fuel with
  | zero => intro k h; exact h
  | succ fuel ih =>
    intro k h
    simp only [findAhead]
    by_cases hc : k < iMax ∧ y.getD k 0 = v
    · rw [if_pos hc]
      exact ih (k + 1) hc.1
    · rw [if_neg hc]
      exact h

theorem findAhead_plateau (y : List ℚ) (iMax : ℕ) (v : ℚ) :
    ∀ fuel k m, k ≤ m → m < findAhead y iMax v fuel k → y.getD m 0 = v := by
  intro fuel
  induction fuel with
  | zero =>
    intro k m hkm hlt
    simp only [findAhead] at hlt
    omega
  | succ fuel ih =>
    intro k m hkm hlt
    simp only [findAhead] at hlt
    by_cases hc : k < iMax ∧ y.getD k 0 = v
    · rw [if_pos hc] at hlt
      rcases Nat.eq_or_lt_of_le hkm with he | hl
      · rw [← he]
        exact hc.2
      · exact ih (k + 1) m hl hlt
    · rw [if_neg hc] at hlt
      omega

theorem findAhead_stop (y : List ℚ) (iMax : ℕ) (v : ℚ) :
    ∀ fuel k, iMax ≤ fuel + k → k ≤ iMax →
      findAhead y iMax v fuel k = iMax ∨ y.getD (findAhead y iMax v fuel k) 0 ≠ v := by
  intro fuel
  induction fuel with
  | zero =>
    intro k h1 h2
    left
    simp only [findAhead]
    omega
  | succ fuel ih =>
    intro k h1 h2
    simp only [findAhead]
    by_cases hc : k < iMax ∧ y.getD k 0 = v
    · rw [if_pos hc]
      exact ih (k + 1) (by omega) hc.1
    · rw [if_neg hc]
      rcases Nat.lt_or_ge k iMax with h | h
      · right
        intro hv
        exact hc ⟨h, hv⟩
      · left
        omega

theorem findAhead_id (y : List ℚ) (iMax : ℕ) (v : ℚ) (fuel k : ℕ)
    (h : ¬(k < iMax ∧ y.getD k 0 = v)) : findAhead y iMax v fuel k = k := by
  cases fuel with
  | zero => rfl
  | succ fuel =>
    simp only [findAhead]
    rw [if_neg h]

/-! ### The local-maxima scan `lmLoop` -/

theorem lmLoop_lb (y : List ℚ) (iMax : ℕ) :
    ∀ fuel i c, c ∈ lmLoop y iMax fuel i → i ≤ c := by
  intro fuel
  induction fuel with
  | zero => intro i c hc; cases hc
  | succ fuel ih =>
    intro i c hc
    simp only [lmLoop] at hc
    by_cases h1 : i < iMax
    · rw [if_pos h1] at hc
      by_cases h2 : y.getD (i - 1) 0 < y.getD i 0
      · rw [if_pos h2] at hc
        by_cases h3 :
            y.getD (findAhead y iMax (y.getD i 0) y.length (i + 1)) 0 < y.getD i 0
        · rw [if_pos h3] at hc
          have hA := findAhead_ge y iMax (y.getD i 0) y.length (i + 1)
          rcases List.mem_cons.1 hc with he | ht
          · subst he; omega
          · have := ih _ _ ht
            omega
        · rw [if_neg h3] at hc
          have := ih _ _ hc
          omega
      · rw [if_neg h2] at hc
        have := ih _ _ hc
        omega
    · rw [if_neg h1] at hc
      cases hc

theorem lmLoop_ub (y : List ℚ) (iMax : ℕ) :
    ∀ fuel i c, c ∈ lmLoop y iMax fuel i → c < iMax := by
  intro fuel
  induction fuel with
  | zero => intro i c hc; cases hc
  | succ fuel ih =>
    intro i c hc
    simp only [lmLoop] at hc
    by_cases h1 : i < iMax
    · rw [if_pos h1] at hc
      by_cases h2 : y.getD (i - 1) 0 < y.getD i 0
      · rw [if_pos h2] at hc
        by_cases h3 :
            y.getD (findAhead y iMax (y.getD i 0) y.length (i + 1)) 0 < y.getD i 0
        · rw [if_pos h3] at hc
          have hA := findAhead_ge y iMax (y.getD i 0) y.length (i + 1)
          have hAle := findAhead_le y iMax (y.getD i 0) y.length (i + 1) (by omega)
          rcases List.mem_cons.1 hc with he | ht
          · subst he; omega
          · exact ih _ _ ht
        · rw [if_neg h3] at hc
          exact ih _ _ hc
      · rw [if_neg h2] at hc
        exact ih _ _ hc
    · rw [if_neg h1] at hc
      cases hc

theorem lmLoop_pairwise (y : List ℚ) (iMax : ℕ) :
    ∀ fuel i, (lmLoop y iMax fuel i).Pairwise (· < ·) := by
  intro fuel
  induction fuel with
  | zero => intro i; exact List.Pairwise.nil
  | succ fuel ih =>
    intro i
    simp only [lmLoop]
    by_cases h1 : i < iMax
    · rw [if_pos h1]
      by_cases h2 : y.getD (i - 1) 0 < y.getD i 0
      · rw [if_pos h2]
        by_cases h3 :
            y.getD (findAhead y iMax (y.getD i 0) y.length (i + 1)) 0 < y.getD i 0
        · rw [if_pos h3]
          refine List.Pairwise.cons ?_ (ih _)
          intro c hc
          have hA := findAhead_ge y iMax (y.getD i 0) y.length (i + 1)
          have := lmLoop_lb y iMax fuel _ c hc
          omega
        · rw [if_neg h3]
          exact ih _
      · rw [if_neg h2]
        exact ih _
    · rw [if_neg h1]
      exact List.Pairwise.nil

theorem localMaxima_bounds (y : List ℚ) (c : ℕ) (hc : c ∈ localMaxima y) :
    1 ≤ c ∧ c + 1 < y.length := by
  have h1 := lmLoop_lb y (y.length - 1) y.length 1 c hc
  have h2 := lmLoop_ub y (y.length - 1) y.length 1 c hc
  omega

theorem localMaxima_pairwise (y : List ℚ) : (localMaxima y).Pairwise (· < ·) :=
  lmLoop_pairwise y (y.length - 1) y.length 1

end ExtractIR

namespace ExtractIR

/-- If the series has a strict interior local maximum at `s` at or beyond the
scan position `i`, the scan emits some candidate whose amplitude is at least
the amplitude at `s`. -/
theorem lmLoop_finds (y : List ℚ) :
    ∀ fuel i s, y.length - 1 ≤ fuel + i → 1 ≤ i → i ≤ s → s + 1 < y.length →
      y.getD (s - 1) 0 < y.getD s 0 → y.getD (s + 1) 0 < y.getD s 0 →
      ∃ c ∈ lmLoop y (y.length - 1) fuel i, y.getD s 0 ≤ y.getD c 0 := by
  intro fuel
  induction fuel with
  | zero =>
    intro i s h1 _ h3 h4 _ _
    omega
  | succ fuel ih =>
    intro i s hfuel hi1 his hs hleft hright
    have hiMax : i < y.length - 1 := by omega
    simp only [lmLoop]
    rw [if_pos hiMax]
    by_cases hrise : y.getD (i - 1) 0 < y.getD i 0
    · rw [if_pos hrise]
      set A := findAhead y (y.length - 1) (y.getD i 0) y.length (i + 1) with hA
      have hAge : i + 1 ≤ A := findAhead_ge y (y.length - 1) (y.getD i 0) y.length (i + 1)
      have hAle : A ≤ y.length - 1 :=
        findAhead_le y (y.length - 1) (y.getD i 0) y.length (i + 1) (by omega)
      by_cases hfall : y.getD A 0 < y.getD i 0
      · rw [if_pos hfall]
        rcases Nat.eq_or_lt_of_le his with he | hlt
        · -- the local maximum sits at the start of the emitted plateau
          refine ⟨(i + (A - 1)) / 2, List.mem_cons_self _ _, ?_⟩
          have hmid1 : i ≤ (i + (A - 1)) / 2 := by omega
          have hmid2 : (i + (A - 1)) / 2 ≤ A - 1 := by omega
          have hmidv : y.getD ((i + (A - 1)) / 2) 0 = y.getD i 0 := by
            rcases Nat.eq_or_lt_of_le hmid1 with hm | hm
            · rw [← hm]
            · exact findAhead_plateau y (y.length - 1) (y.getD i 0) y.length (i + 1)
                ((i + (A - 1)) / 2) (by omega) (by omega)
          rw [hmidv, he]
        · -- the local maximum lies strictly beyond the plateau
          have hsA : A + 1 ≤ s := by
            by_contra hcon
            push_neg at hcon
            rcases Nat.lt_or_ge s A with hsltA | hsgeA
            · -- i < s < A : s and s-1 both carry the plateau value
              have hys : y.getD s 0 = y.getD i 0 :=
                findAhead_plateau y (y.length - 1) (y.getD i 0) y.length (i + 1) s
                  (by omega) hsltA
              have hys1 : y.getD (s - 1) 0 = y.getD i 0 := by
                rcases Nat.eq_or_lt_of_le (show i ≤ s - 1 by omega) with hm | hm
                · rw [← hm]
                · exact findAhead_plateau y (y.length - 1) (y.getD i 0) y.length (i + 1)
                    (s - 1) (by omega) (by omega)
              rw [hys, hys1] at hleft
              exact absurd hleft (lt_irrefl _)
            · -- s = A : the value drops at A, so s-1 carries the plateau value
              have hsA' : s = A := by omega
              have hys1 : y.getD (s - 1) 0 = y.getD i 0 := by
                rcases Nat.eq_or_lt_of_le (show i ≤ s - 1 by omega) with hm | hm
                · rw [← hm]
                · exact findAhead_plateau y (y.length - 1) (y.getD i 0) y.length (i + 1)
                    (s - 1) (by omega) (by omega)
              rw [hys1, hsA'] at hleft
              exact absurd (lt_trans hleft hfall) (lt_irrefl _)
          obtain ⟨c, hc, hyc⟩ := ih (A + 1) s (by omega) (by omega) hsA hs hleft hright
          exact ⟨c, List.mem_cons_of_mem _ hc, hyc⟩
      · rw [if_neg hfall]
        have hsne : i ≠ s := by
          intro he
          have hstop : A = i + 1 := by
            rw [hA]
            apply findAhead_id
            intro hcc
            rw [← he] at hright
            exact absurd hcc.2 (ne_of_lt hright)
          rw [hstop] at hfall
          rw [← he] at hright
          exact hfall hright
        exact ih (i + 1) s (by omega) (by omega) (by omega) hs hleft hright
    · rw [if_neg hrise]
      have hsne : i ≠ s := by
        intro he
        rw [he] at hrise
        exact hrise hleft
      exact ih (i + 1) s (by omega) (by omega) (by omega) hs hleft hright

/-- A strict interior local maximum guarantees a candidate of at least its
amplitude in `localMaxima`. -/
theorem localMaxima_finds (y : List ℚ) (s : ℕ) (h0 : 0 < s) (hs : s + 1 < y.length)
    (hleft : y.getD (s - 1) 0 < y.getD s 0) (hright : y.getD (s + 1) 0 < y.getD s 0) :
    ∃ c ∈ localMaxima y, y.getD s 0 ≤ y.getD c 0 :=
  lmLoop_finds y y.length 1 s (by omega) (le_refl 1) h0 hs hleft hright

end ExtractIR

namespace ExtractIR

/-! ### The distance-suppression loop -/

theorem suppressStep_length (cands : List ℕ) (d : ℕ) (keep : List Bool) (j : ℕ) :
    (suppressStep cands d keep j).length = keep.length := by
  unfold suppressStep
  split
  · simp
  · rfl

theorem suppressStep_getD (cands : List ℕ) (d : ℕ) (keep : List Bool) (j k : ℕ) :
    (suppressStep cands d keep j).getD k false =
      if keep.getD j false = true then
        (if k < keep.length then
          (if k ≠ j ∧ Nat.dist (cands.getD k 0) (cands.getD j 0) < d then false
           else keep.getD k false)
         else false)
      else keep.getD k false := by
  unfold suppressStep
  by_cases h : keep.getD j false = true
  · rw [if_pos h, if_pos h, getD_range_map]
  · rw [if_neg h, if_neg h]

theorem suppressStep_getD_imp (cands : List ℕ) (d : ℕ) (keep : List Bool) (j k : ℕ)
    (h : (suppressStep cands d keep j).getD k false = true) : keep.getD k false = true := by
  rw [suppressStep_getD] at h
  by_cases h1 : keep.getD j false = true
  · rw [if_pos h1] at h
    by_cases h2 : k < keep.length
    · rw [if_pos h2] at h
      by_cases h3 : k ≠ j ∧ Nat.dist (cands.getD k 0) (cands.getD j 0) < d
      · rw [if_pos h3] at h
        exact Bool.noConfusion h
      · rwa [if_neg h3] at h
    · rw [if_neg h2] at h
      exact Bool.noConfusion h
  · rwa [if_neg h1] at h

theorem sepInv_step (cands : List ℕ) (d : ℕ) (j₀ : ℕ) (rest : List ℕ) (keep : List Bool)
    (h : SepInv cands d (j₀ :: rest) keep) :
    SepInv cands d rest (suppressStep cands d keep j₀) := by
  intro j k hjk hclose hj hk
  have hj' := suppressStep_getD_imp cands d keep j₀ j hj
  have hk' := suppressStep_getD_imp cands d keep j₀ k hk
  by_cases hkeep : keep.getD j₀ false = true
  · by_cases hjj : j = j₀
    · exfalso
      rw [suppressStep_getD, if_pos hkeep] at hk
      by_cases hklen : k < keep.length
      · rw [if_pos hklen, if_pos ?_] at hk
        · exact Bool.noConfusion hk
        · constructor
          · intro he
            exact hjk (by rw [hjj, he])
          · rw [← hjj, Nat.dist_comm]
            exact hclose
      · rw [if_neg hklen] at hk
        exact Bool.noConfusion hk
    · by_cases hkk : k = j₀
      · exfalso
        rw [suppressStep_getD, if_pos hkeep] at hj
        by_cases hjlen : j < keep.length
        · rw [if_pos hjlen, if_pos ?_] at hj
          · exact Bool.noConfusion hj
          · constructor
            · intro he
              exact hjk (by rw [hkk, he])
            · rw [← hkk]
              exact hclose
        · rw [if_neg hjlen] at hj
          exact Bool.noConfusion hj
      · rcases h j k hjk hclose hj' hk' with hmem | hmem
        · rcases List.mem_cons.1 hmem with he | ht
          · exact absurd he hjj
          · exact Or.inl ht
        · rcases List.mem_cons.1 hmem with he | ht
          · exact absurd he hkk
          · exact Or.inr ht
  · have heq : suppressStep cands d keep j₀ = keep := by
      unfold suppressStep
      rw [if_neg hkeep]
    rw [heq] at hj hk
    by_cases hjj : j = j₀
    · exact absurd (by rw [← hjj]; exact hj) hkeep
    · by_cases hkk : k = j₀
      · exact absurd (by rw [← hkk]; exact hk) hkeep
      · rcases h j k hjk hclose hj hk with hmem | hmem
        · rcases List.mem_cons.1 hmem with he | ht
          · exact absurd he hjj
          · exact Or.inl ht
        · rcases List.mem_cons.1 hmem with he | ht
          · exact absurd he hkk
          · exact Or.inr ht

theorem selectLoop_sep (cands : List ℕ) (d : ℕ) :
    ∀ order keep, SepInv cands d order keep →
      ∀ j k, j ≠ k → Nat.dist (cands.getD j 0) (cands.getD k 0) < d →
        ¬((selectLoop cands d order keep).getD j false = true ∧
          (selectLoop cands d order keep).getD k false = true) := by
  intro order
  induction order with
  | nil =>
    intro keep h j k hjk hclose hcon
    rcases h j k hjk hclose hcon.1 hcon.2 with hm | hm
    · cases hm
    · cases hm
  | cons j₀ rest ih =>
    intro keep h j k hjk hclose
    exact ih (suppressStep cands d keep j₀) (sepInv_step cands d j₀ rest keep h) j k hjk hclose

theorem keepInv_step (cands : List ℕ) (d : ℕ) (j₀ : ℕ) (keep : List Bool) (j : ℕ)
    (hlen : j₀ < keep.length) (h : KeepInv cands d j₀ keep) :
    KeepInv cands d j₀ (suppressStep cands d keep j) := by
  obtain ⟨h1, h2⟩ := h
  by_cases hkeep : keep.getD j false = true
  · constructor
    · rw [suppressStep_getD, if_pos hkeep, if_pos hlen]
      by_cases hjj : j₀ = j
      · rw [if_neg]
        · exact h1
        · intro hcc
          exact hcc.1 hjj
      · have hfar : ¬Nat.dist (cands.getD j 0) (cands.getD j₀ 0) < d := by
          intro hcl
          have hzero := h2 j (fun he => hjj he.symm) hcl
          rw [hzero] at hkeep
          exact Bool.noConfusion hkeep
        rw [if_neg]
        · exact h1
        · intro hcc
          exact hfar (by rw [Nat.dist_comm]; exact hcc.2)
    · intro k hk hcl
      rw [suppressStep_getD, if_pos hkeep]
      by_cases hklen : k < keep.length
      · rw [if_pos hklen]
        by_cases hc : k ≠ j ∧ Nat.dist (cands.getD k 0) (cands.getD j 0) < d
        · rw [if_pos hc]
        · rw [if_neg hc]
          exact h2 k hk hcl
      · rw [if_neg hklen]
  · have heq : suppressStep cands d keep j = keep := by
      unfold suppressStep
      rw [if_neg hkeep]
    rw [heq]
    exact ⟨h1, h2⟩

theorem selectLoop_keepInv (cands : List ℕ) (d : ℕ) (j₀ : ℕ) :
    ∀ order keep, j₀ < keep.length → KeepInv cands d j₀ keep →
      KeepInv cands d j₀ (selectLoop cands d order keep) := by
  intro order
  induction order with
  | nil => intro keep _ h; exact h
  | cons j rest ih =>
    intro keep hlen h
    exact ih (suppressStep cands d keep j)
      (by rw [suppressStep_length]; exact hlen) (keepInv_step cands d j₀ keep j hlen h)

/-! ### The processing order `selOrder` -/

theorem selOrder_length (prio : List ℚ) (n : ℕ) : (selOrder prio n).length = n := by
  unfold selOrder
  rw [(List.perm_insertionSort _ _).length_eq, List.length_range]

theorem selOrder_mem_lt (prio : List ℚ) (n j : ℕ) (h : j ∈ selOrder prio n) : j < n := by
  unfold selOrder at h
  rw [List.mem_insertionSort] at h
  exact List.mem_range.1 h

theorem selOrder_head_max (prio : List ℚ) (n : ℕ) (j₀ : ℕ) (rest : List ℕ)
    (h : selOrder prio n = j₀ :: rest) :
    ∀ k, k < n → prio.getD k 0 ≤ prio.getD j₀ 0 := by
  intro k hk
  have hmem : k ∈ selOrder prio n := by
    unfold selOrder
    rw [List.mem_insertionSort]
    exact List.mem_range.2 hk
  rw [h] at hmem
  rcases List.mem_cons.1 hmem with he | ht
  · rw [he]
  · have hsorted : List.Sorted (fun a b => prio.getD b 0 ≤ prio.getD a 0) (selOrder prio n) := by
      unfold selOrder
      haveI : IsTotal ℕ (fun a b => prio.getD b 0 ≤ prio.getD a 0) :=
        ⟨fun a b => le_total (prio.getD b 0) (prio.getD a 0)⟩
      haveI : IsTrans ℕ (fun a b => prio.getD b 0 ≤ prio.getD a 0) :=
        ⟨fun a b c hab hbc => le_trans hbc hab⟩
      exact List.sorted_insertionSort _ _
    rw [h] at hsorted
    exact List.rel_of_sorted_cons hsorted k ht

/-- The first-processed candidate — a candidate of maximal priority — always
survives distance suppression. -/
theorem selectByPeakDistance_keeps_head (cands : List ℕ) (prio : List ℚ) (d : ℕ)
    (j₀ : ℕ) (rest : List ℕ) (horder : selOrder prio cands.length = j₀ :: rest)
    (hj₀ : j₀ < cands.length) :
    (selectByPeakDistance cands prio d).getD j₀ false = true := by
  unfold selectByPeakDistance
  rw [horder]
  show (selectLoop cands d rest
      (suppressStep cands d (List.replicate cands.length true) j₀)).getD j₀ false = true
  have hrep : (List.replicate cands.length true).getD j₀ false = true :=
    getD_replicate _ _ hj₀
  have hreplen : j₀ < (List.replicate cands.length true).length := by simpa using hj₀
  have hstart : KeepInv cands d j₀
      (suppressStep cands d (List.replicate cands.length true) j₀) := by
    constructor
    · rw [suppressStep_getD, if_pos hrep, if_pos hreplen, if_neg]
      · exact hrep
      · intro hcc
        exact hcc.1 rfl
    · intro k hk hcl
      rw [suppressStep_getD, if_pos hrep]
      by_cases hklen : k < (List.replicate cands.length true).length
      · rw [if_pos hklen, if_pos ⟨hk, hcl⟩]
      · rw [if_neg hklen]
  exact (selectLoop_keepInv cands d j₀ rest _
    (by rw [suppressStep_length]; exact hreplen) hstart).1

/-- No two distinct kept positions are closer than `d`. -/
theorem selectByPeakDistance_sep (cands : List ℕ) (prio : List ℚ) (d : ℕ) (j k : ℕ)
    (hjk : j ≠ k) (hclose : Nat.dist (cands.getD j 0) (cands.getD k 0) < d) :
    ¬((selectByPeakDistance cands prio d).getD j false = true ∧
      (selectByPeakDistance cands prio d).getD k false = true) := by
  unfold selectByPeakDistance
  refine selectLoop_sep cands d _ _ ?_ j k hjk hclose
  intro a b _ _ ha _
  left
  have := getD_replicate_lt cands.length a ha
  unfold selOrder
  rw [List.mem_insertionSort]
  exact List.mem_range.2 this

end ExtractIR

namespace ExtractIR

/-! ### `find_peaks` membership helpers -/

theorem find_peaks_mem_of_keep (ys : List ℚ) (d : ℕ) (j : ℕ)
    (hj : j < (localMaxima ys).length)
    (hkeep : (selectByPeakDistance (localMaxima ys)
        ((localMaxima ys).map (fun p => ys.getD p 0)) d).getD j false = true) :
    (localMaxima ys).getD j 0 ∈ find_peaks ys d := by
  unfold find_peaks
  apply List.mem_map_of_mem
  apply List.mem_filter.2
  refine ⟨List.mem_range.2 hj, ?_⟩
  simpa using hkeep

theorem prio_getD (ys : List ℚ) (j : ℕ) (hj : j < (localMaxima ys).length) :
    ((localMaxima ys).map (fun p => ys.getD p 0)).getD j 0 =
      ys.getD ((localMaxima ys).getD j 0) 0 := by
  have hlen : j < ((localMaxima ys).map (fun p => ys.getD p 0)).length := by simpa using hj
  rw [List.getD_eq_getElem _ _ hlen, List.getD_eq_getElem _ _ hj]
  simp

/-! ### Claim theorems -/

/-- C1: the claim says every processed file is loaded from inside the CLI
`inputFolder`.  The code instead reads every file from the hardcoded
`.\input_IR\` directory (line 71), independent of `inputFolder`: for
`inputFolder = "mydata"` the loaded path does not lie inside it. -/
theorem C1_input_path_hardcoded :
    (∀ f, readPath f = ".\\input_IR\\" ++ f) ∧
      readPath "a.jdx" ≠ ".\\mydata\\" ++ "a.jdx" :=
  ⟨fun _ => rfl, by decide⟩

/-- C2: the claim says a flat spectrum makes the normalizer raise a
degenerate-input error instead of propagating NaN.  The code has no guard:
numpy evaluates `0/0` for every sample of the flat spectrum `[1, 1, 1]`,
completing with every amplitude non-finite (NaN), which this evaluation of
the embedded normalizer exhibits. -/
theorem C2_flat_spectrum_nan : normalizeNp [1, 1, 1] = [none, none, none] := by
  norm_num [normalizeNp, npDiv, offsetRemoved, listMin, listMax, min_def, max_def]

/-- C3 counterexample: on the spec's concrete scenario the pipeline does not
return the two claimed peaks (800, 17/18) and (2000, 1): the sample at the
last index can never be a peak, so only one peak is produced. -/
theorem C3_two_peaks_cex :
    extract_one specX specY false (1/20) 1 ≠ [(800, 17/18), (2000, 1)] := by
  norm_num [extract_one, peakDetect, invertStep, find_peaks, selectByPeakDistance, selOrder,
    selectLoop, suppressStep, localMaxima, lmLoop, findAhead, normalizeStage, offsetRemoved,
    listMin, listMax, specX, specY, min_def, max_def, List.insertionSort, List.orderedInsert,
    Nat.dist, List.range_succ, List.range_zero]

/-- C3 amended: on x = [400,800,1200,1600,2000], y = [0.1,0.9,0.05,0.05,0.95]
with threshold 0.05 and distance 1 the pipeline outputs exactly one peak,
(800, 17/18 ≈ 0.944); the candidate at the final index 4 (x = 2000) is
excluded because boundary samples are never local-maximum candidates. -/
theorem C3_single_peak :
    extract_one specX specY false (1/20) 1 = [(800, 17/18)] := by
  norm_num [extract_one, peakDetect, invertStep, find_peaks, selectByPeakDistance, selOrder,
    selectLoop, suppressStep, localMaxima, lmLoop, findAhead, normalizeStage, offsetRemoved,
    listMin, listMax, specX, specY, min_def, max_def, List.insertionSort, List.orderedInsert,
    Nat.dist, List.range_succ, List.range_zero]

/-- C4: if the normalized series has a strict interior local maximum whose
amplitude exceeds the threshold `t`, the detector returns at least one peak;
and every returned peak has amplitude at least `t`. -/
theorem C4_nonempty_and_threshold (xs ys : List ℚ) (t : ℚ) (d : ℕ)
    (h : ∃ s, 0 < s ∧ s + 1 < ys.length ∧ ys.getD (s - 1) 0 < ys.getD s 0 ∧
      ys.getD (s + 1) 0 < ys.getD s 0 ∧ t < ys.getD s 0) :
    peakDetect xs ys t d ≠ [] ∧ ∀ p ∈ peakDetect xs ys t d, t ≤ p.2 := by
  constructor
  · obtain ⟨s, hs0, hs1, hl, hr, ht⟩ := h
    obtain ⟨c, hcmem, hcge⟩ := localMaxima_finds ys s hs0 hs1 hl hr
    have hn : 0 < (localMaxima ys).length :=
      List.length_pos.2 (List.ne_nil_of_mem hcmem)
    cases horder : selOrder ((localMaxima ys).map (fun p => ys.getD p 0))
        (localMaxima ys).length with
    | nil =>
      exfalso
      have hlen := selOrder_length ((localMaxima ys).map (fun p => ys.getD p 0))
        (localMaxima ys).length
      rw [horder] at hlen
      simp at hlen
      omega
    | cons j₀ rest =>
      have hj₀mem : j₀ ∈ selOrder ((localMaxima ys).map (fun p => ys.getD p 0))
          (localMaxima ys).length := by
        rw [horder]
        exact List.mem_cons_self _ _
      have hj₀lt : j₀ < (localMaxima ys).length := selOrder_mem_lt _ _ _ hj₀mem
      have hkeep := selectByPeakDistance_keeps_head (localMaxima ys)
        ((localMaxima ys).map (fun p => ys.getD p 0)) d j₀ rest horder hj₀lt
      have hp₀ : (localMaxima ys).getD j₀ 0 ∈ find_peaks ys d :=
        find_peaks_mem_of_keep ys d j₀ hj₀lt hkeep
      obtain ⟨jc, hjc, hjceq⟩ := List.getElem_of_mem hcmem
      have hmax := selOrder_head_max ((localMaxima ys).map (fun p => ys.getD p 0))
        (localMaxima ys).length j₀ rest horder jc hjc
      have hcamp : ((localMaxima ys).map (fun p => ys.getD p 0)).getD jc 0 = ys.getD c 0 := by
        rw [prio_getD ys jc hjc, List.getD_eq_getElem _ _ hjc, hjceq]
      have hp₀amp := prio_getD ys j₀ hj₀lt
      have hta : t ≤ ys.getD ((localMaxima ys).getD j₀ 0) 0 := by
        have h1 : t < ys.getD c 0 := lt_of_lt_of_le ht hcge
        have h2 : ys.getD c 0 ≤ ys.getD ((localMaxima ys).getD j₀ 0) 0 := by
          rw [← hp₀amp, ← hcamp]
          exact hmax
        exact le_of_lt (lt_of_lt_of_le h1 h2)
      have hpair : (xs.getD ((localMaxima ys).getD j₀ 0) 0,
          ys.getD ((localMaxima ys).getD j₀ 0) 0) ∈ peakDetect xs ys t d := by
        unfold peakDetect
        apply List.mem_filter.2
        refine ⟨List.mem_map_of_mem _ hp₀, ?_⟩
        simpa using hta
      exact List.ne_nil_of_mem hpair
  · intro p hp
    unfold peakDetect at hp
    have hfp := (List.mem_filter.1 hp).2
    simpa using hfp

/-- C4 witness: the series [0, 1, 0] has a strict interior local maximum at
index 1 above the threshold 1/2, and the theorem instantiates there. -/
theorem C4_witness :
    peakDetect [400, 800, 1200] [0, 1, 0] (1/2) 1 ≠ [] ∧
      ∀ p ∈ peakDetect [400, 800, 1200] [0, 1, 0] (1/2) 1, (1/2 : ℚ) ≤ p.2 :=
  C4_nonempty_and_threshold [400, 800, 1200] [0, 1, 0] (1/2) 1 ⟨1, by norm_num⟩

/-- C5: for a positive minimum distance `d`, the index positions the detector
returns are pairwise at least `d` apart (stated along the returned, strictly
increasing, index list). -/
theorem C5_distance_separation (ys : List ℚ) (t : ℚ) (d : ℕ) (_hd : 1 ≤ d) :
    (detectIdx ys t d).Pairwise (fun p q => p + d ≤ q) := by
  unfold detectIdx
  apply List.Pairwise.filter
  unfold find_peaks
  apply (List.pairwise_map).2
  have hpw : ((List.range (localMaxima ys).length).filter
      (fun j => (selectByPeakDistance (localMaxima ys)
          ((localMaxima ys).map (fun p => ys.getD p 0)) d).getD j false)).Pairwise (· < ·) :=
    (List.pairwise_lt_range _).filter _
  apply List.Pairwise.imp_of_mem ?_ hpw
  intro a b ha hb hab
  have ha' := List.mem_filter.1 ha
  have hb' := List.mem_filter.1 hb
  have hbR : b < (localMaxima ys).length := List.mem_range.1 hb'.1
  have hka : (selectByPeakDistance (localMaxima ys)
      ((localMaxima ys).map (fun p => ys.getD p 0)) d).getD a false = true := by
    simpa using ha'.2
  have hkb : (selectByPeakDistance (localMaxima ys)
      ((localMaxima ys).map (fun p => ys.getD p 0)) d).getD b false = true := by
    simpa using hb'.2
  have hmono := pairwise_getD_lt (localMaxima ys) (localMaxima_pairwise ys) a b hab hbR
  by_cases hclose : Nat.dist ((localMaxima ys).getD a 0) ((localMaxima ys).getD b 0) < d
  · exact absurd ⟨hka, hkb⟩
      (selectByPeakDistance_sep (localMaxima ys)
        ((localMaxima ys).map (fun p => ys.getD p 0)) d a b (Nat.ne_of_lt hab) hclose)
  · have hdist : Nat.dist ((localMaxima ys).getD a 0) ((localMaxima ys).getD b 0) =
        (localMaxima ys).getD b 0 - (localMaxima ys).getD a 0 :=
      Nat.dist_eq_sub_of_le (le_of_lt hmono)
    omega

/-- C5 witness: instantiation at the series [0, 1, 0] with distance 1. -/
theorem C5_witness :
    1 ≤ 1 ∧ (detectIdx [0, 1, 0] 0 1).Pairwise (fun p q => p + 1 ≤ q) :=
  ⟨le_refl 1, C5_distance_separation [0, 1, 0] 0 1 (le_refl 1)⟩

end ExtractIR

namespace ExtractIR

/-- C6: for a nonempty, non-flat spectrum the normalizer (optional inversion,
offset removal, max normalization) leaves every amplitude in [0, 1] with
minimum exactly 0 and maximum exactly 1. -/
theorem C6_normalized_range (ys : List ℚ) (inv : Bool) (hne : ys ≠ [])
    (hnf : ∃ a ∈ ys, ∃ b ∈ ys, a ≠ b) :
    (∀ v ∈ normalizeStage (invertStep inv ys), 0 ≤ v ∧ v ≤ 1) ∧
      listMin (normalizeStage (invertStep inv ys)) = 0 ∧
      listMax (normalizeStage (invertStep inv ys)) = 1 :=
  normalizeStage_props (invertStep inv ys) (invertStep_ne_nil inv ys hne)
    (invertStep_nonflat inv ys hnf)

/-- C6 witness: instantiation at the inverted two-point spectrum [0, 1]. -/
theorem C6_witness :
    (∀ v ∈ normalizeStage (invertStep true [0, 1]), 0 ≤ v ∧ v ≤ 1) ∧
      listMin (normalizeStage (invertStep true [0, 1])) = 0 ∧
      listMax (normalizeStage (invertStep true [0, 1])) = 1 :=
  C6_normalized_range [0, 1] true (by simp) ⟨0, by simp, 1, by simp, by norm_num⟩

/-- C7: offset removal followed by max normalization is idempotent on
nonempty, non-flat amplitude series: the second application subtracts the new
minimum 0 and divides by the new maximum 1, changing nothing. -/
theorem C7_normalization_idempotent (ys : List ℚ) (hne : ys ≠ [])
    (hnf : ∃ a ∈ ys, ∃ b ∈ ys, a ≠ b) :
    normalizeStage (normalizeStage ys) = normalizeStage ys := by
  obtain ⟨_, hmin, hmax⟩ := normalizeStage_props ys hne hnf
  have h1 : offsetRemoved (normalizeStage ys) = normalizeStage ys := by
    unfold offsetRemoved
    rw [hmin]
    simp
  show (offsetRemoved (normalizeStage ys)).map
      (fun v => v / listMax (offsetRemoved (normalizeStage ys))) = normalizeStage ys
  rw [h1, hmax]
  simp

/-- C7 witness: instantiation at the two-point spectrum [0, 1]. -/
theorem C7_witness : normalizeStage (normalizeStage [0, 1]) = normalizeStage [0, 1] :=
  C7_normalization_idempotent [0, 1] (by simp) ⟨0, by simp, 1, by simp, by norm_num⟩

/-- C8 counterexample: with `--invertAmplitude` supplied, `argparse` stores a
single string and `f in invertAmp` is Python's substring test.  The file name
"c.jdx" is not one of the listed names (the supplied list names only
"abc.jdx"), yet the test succeeds, so the file is inverted. -/
theorem C8_unlisted_file_inverted :
    strIn "c.jdx".toList "abc.jdx".toList = true ∧
      ("c.jdx" : String) ∉ (["abc.jdx"] : List String) :=
  ⟨by decide, by decide⟩

/-- C8 amended: for a CLI invocation with `--invertAmplitude`, inversion is
applied to a file exactly when its name occurs as a contiguous substring of
the supplied argument string — not when it is an element of a list of
names. -/
theorem C8_substring_semantics (f : List Char) :
    ∀ ia, strIn f ia = true ↔ ∃ p q, p ++ f ++ q = ia := by
  have hsw : ∀ p s : List Char, startsWithChars p s = true ↔ ∃ q, p ++ q = s := by
    intro p
    induction p with
    | nil =>
      intro s
      simp [startsWithChars]
    | cons a as ih =>
      intro s
      cases s with
      | nil => simp [startsWithChars]
      | cons b bs =>
        simp only [startsWithChars, Bool.and_eq_true, decide_eq_true_eq]
        constructor
        · rintro ⟨hab, hrec⟩
          obtain ⟨q, hq⟩ := (ih bs).1 hrec
          refine ⟨q, ?_⟩
          rw [List.cons_append, hab, hq]
        · rintro ⟨q, hq⟩
          rw [List.cons_append] at hq
          injection hq with h1 h2
          exact ⟨h1, (ih bs).2 ⟨q, h2⟩⟩
  intro ia
  induction ia with
  | nil =>
    simp only [strIn]
    rw [hsw]
    constructor
    · rintro ⟨q, hq⟩
      exact ⟨[], q, by simpa using hq⟩
    · rintro ⟨p, q, hpq⟩
      rcases List.append_eq_nil.1 hpq with ⟨hpf, hq⟩
      rcases List.append_eq_nil.1 hpf with ⟨_, hf⟩
      exact ⟨[], by simp [hf, hq]⟩
  | cons b t ih =>
    simp only [strIn, Bool.or_eq_true]
    rw [hsw, ih]
    constructor
    · rintro (⟨q, hq⟩ | ⟨p, q, hpq⟩)
      · exact ⟨[], q, by simpa using hq⟩
      · refine ⟨b :: p, q, ?_⟩
        simp only [List.cons_append, List.append_assoc] at hpq ⊢
        rw [hpq]
    · rintro ⟨p, q, hpq⟩
      cases p with
      | nil =>
        left
        exact ⟨q, by simpa using hpq⟩
      | cons c p' =>
        right
        rw [List.cons_append, List.cons_append] at hpq
        injection hpq with h1 h2
        exact ⟨p', q, h2⟩

/-- C9: a batch over a directory with no file matching the extension
processes zero files, performs no filesystem operation at all (in particular
it never creates the output directory) and finishes normally. -/
theorem C9_empty_input (entries : List (List Char)) (ext outFolder : List Char)
    (h : ∀ f ∈ entries, endsWithChars f ext = false) :
    extract_peaks_events (list_files entries ext) outFolder = ([], 0) := by
  have hnil : list_files entries ext = [] := by
    unfold list_files
    rw [List.filter_eq_nil_iff]
    intro a ha
    simp [h a ha]
  rw [hnil]
  rfl

/-- C9 witness: a directory holding only "a.txt" with extension "jdx". -/
theorem C9_witness :
    (∀ f ∈ (["a.txt".toList] : List (List Char)), endsWithChars f "jdx".toList = false) ∧
      extract_peaks_events (list_files ["a.txt".toList] "jdx".toList)
        "output_peaks".toList = ([], 0) :=
  ⟨by decide, C9_empty_input ["a.txt".toList] "jdx".toList "output_peaks".toList (by decide)⟩

/-- C10: every index the detector returns is interior: never 0, never the
last index of the series, whatever the threshold and distance. -/
theorem C10_no_boundary_peaks (ys : List ℚ) (t : ℚ) (d : ℕ) (p : ℕ)
    (hp : p ∈ detectIdx ys t d) : 0 < p ∧ p + 1 < ys.length := by
  have hp1 : p ∈ find_peaks ys d := by
    unfold detectIdx at hp
    exact (List.mem_filter.1 hp).1
  unfold find_peaks at hp1
  obtain ⟨j, hj, hpj⟩ := List.mem_map.1 hp1
  have hjR : j < (localMaxima ys).length := List.mem_range.1 (List.mem_filter.1 hj).1
  have hmem : (localMaxima ys).getD j 0 ∈ localMaxima ys := getD_mem_of_lt _ j hjR
  have hb := localMaxima_bounds ys _ hmem
  rw [← hpj]
  omega

/-- Evaluation of the detector on the three-point series [0, 1, 0]. -/
theorem detectIdx_example : detectIdx [0, 1, 0] 0 1 = [1] := by
  norm_num [detectIdx, find_peaks, selectByPeakDistance, selOrder, selectLoop, suppressStep,
    localMaxima, lmLoop, findAhead, min_def, max_def, List.insertionSort, List.orderedInsert,
    Nat.dist, List.range_succ, List.range_zero]

/-- C10 witness: the single peak of [0, 1, 0] sits at the interior index 1. -/
theorem C10_witness :
    1 ∈ detectIdx [0, 1, 0] 0 1 ∧ (0 < 1 ∧ 1 + 1 < ([0, 1, 0] : List ℚ).length) :=
  ⟨by rw [detectIdx_example]; simp,
    C10_no_boundary_peaks [0, 1, 0] 0 1 1 (by rw [detectIdx_example]; simp)⟩

end ExtractIR
